import Mathlib

/-!
Verification of the core transformations of `src/web/scripts/predict.py`:
the probability normalizer `normalize_probs`, the rank repairer
`ensure_permutation_ranks`, and the history-row extractor
`parse_horse_recent_results`.

Python floats are modelled exactly: a rational number or one of the
special values `inf`, `-inf`, `nan`, with the comparison, max, addition
and division behaviour the source relies on.  Rounding is not modelled,
so every "within tolerance" statement becomes an exact equality here.
-/

namespace Predict

/-- Model of a Python float value: an exact rational, positive infinity,
negative infinity, or NaN. -/
inductive PyFloat
  | num (q : ℚ)
  | inf
  | ninf
  | nan
  deriving DecidableEq, Repr

namespace PyFloat

/-- Python `max(0.0, v)`.  CPython's two-argument `max` keeps the first
argument unless the second compares strictly greater, and every
comparison with NaN is false, so `max(0.0, nan) = 0.0`. -/
def pmax0 : PyFloat → PyFloat
  | num q => if 0 < q then num q else num 0
  | inf => inf
  | ninf => num 0
  | nan => num 0

/-- IEEE-754 addition on the model (used by Python's `sum`). -/
def padd : PyFloat → PyFloat → PyFloat
  | nan, _ => nan
  | _, nan => nan
  | inf, ninf => nan
  | ninf, inf => nan
  | inf, _ => inf
  | _, inf => inf
  | ninf, _ => ninf
  | _, ninf => ninf
  | num a, num b => num (a + b)

/-- Python `s <= 0` on a float `s`: false for NaN and `+inf`, true for `-inf`. -/
def pleZero : PyFloat → Bool
  | num q => decide (q ≤ 0)
  | inf => false
  | ninf => true
  | nan => false

/-- IEEE-754 division on the model.  The `num _ / num 0` case would raise
`ZeroDivisionError` in Python; `normalize_probs` only divides by a total
that failed the `s <= 0` test, so that case is unreachable there. -/
def pdiv : PyFloat → PyFloat → PyFloat
  | nan, _ => nan
  | _, nan => nan
  | inf, inf => nan
  | inf, ninf => nan
  | ninf, inf => nan
  | ninf, ninf => nan
  | inf, num q => if q < 0 then ninf else inf
  | ninf, num q => if q < 0 then inf else ninf
  | num _, inf => num 0
  | num _, ninf => num 0
  | num a, num b => if b = 0 then nan else num (a / b)

/-- A float that is finite or NaN (i.e. not one of the two infinities). -/
def isFiniteOrNaN : PyFloat → Bool
  | num _ => true
  | nan => true
  | _ => false

/-- A float that is a valid probability value: a rational in `[0, 1]`. -/
def isProbVal : PyFloat → Bool
  | num q => decide (0 ≤ q ∧ q ≤ 1)
  | _ => false

/-- A float that is a non-negative rational. -/
def isNonnegNum : PyFloat → Bool
  | num q => decide (0 ≤ q)
  | _ => false

/-- The rational that `max(0.0, ·)` produces on a finite-or-NaN float. -/
def clampQ : PyFloat → ℚ
  | num q => if 0 < q then q else 0
  | _ => 0

end PyFloat

open PyFloat

/-- Python `sum` over a list of floats (initial accumulator is `0`). -/
def sumPF (l : List PyFloat) : PyFloat := l.foldl padd (num 0)

/-- The total that `normalize_probs` computes:
`sum(max(0.0, float(v)) for v in values.values())`. -/
def clampedTotal (values : List (String × PyFloat)) : PyFloat :=
  sumPF (values.map (fun kv => pmax0 kv.2))

/-- Embedding of `normalize_probs` (predict.py lines 292–298).  A Python
dict is modelled as an association list in iteration order; `len(values) or 1`
is `1` exactly when the dict is empty. -/
def normalize_probs (values : List (String × PyFloat)) : List (String × PyFloat) :=
  if pleZero (clampedTotal values) then
    values.map (fun kv =>
      (kv.1, num ((1 : ℚ) / ((if values.length = 0 then 1 else values.length : ℕ) : ℚ))))
  else
    values.map (fun kv => (kv.1, pdiv (pmax0 kv.2) (clampedTotal values)))

example : normalize_probs [("a", num 3), ("b", num 1)]
    = [("a", num (3/4)), ("b", num (1/4))] := by
  norm_num [normalize_probs, clampedTotal, sumPF, pmax0, padd, pleZero, pdiv]

example : normalize_probs [("a", num 0), ("b", num 0), ("c", num 0)]
    = [("a", num (1/3)), ("b", num (1/3)), ("c", num (1/3))] := by
  norm_num [normalize_probs, clampedTotal, sumPF, pmax0, padd, pleZero, pdiv]

/-! ### Helper lemmas about `sumPF` and clamping -/

lemma foldl_padd_num (l : List ℚ) (a : ℚ) :
    List.foldl padd (num a) (l.map num) = num (a + l.sum) := by
  induction l generalizing a with
  | nil => simp
  | cons x xs ih =>
    simp only [List.map_cons, List.foldl_cons, padd, List.sum_cons, ih, add_assoc]

lemma sumPF_map_num (l : List ℚ) : sumPF (l.map num) = num l.sum := by
  simpa using foldl_padd_num l 0

lemma sum_map_const {α : Type} (l : List α) (c : ℚ) :
    (l.map (fun _ => c)).sum = l.length * c := by
  induction l with
  | nil => simp
  | cons x xs ih => simp [ih, add_mul]; ring

lemma sum_map_div (l : List ℚ) (c : ℚ) :
    (l.map (fun q => q / c)).sum = l.sum / c := by
  induction l with
  | nil => simp
  | cons x xs ih => simp [ih, add_div]

lemma pmax0_eq_clampQ (v : PyFloat) (h : isFiniteOrNaN v = true) :
    pmax0 v = num (clampQ v) := by
  cases v with
  | num q =>
    simp only [pmax0, clampQ]
    split <;> rfl
  | inf => simp [isFiniteOrNaN] at h
  | ninf => simp [isFiniteOrNaN] at h
  | nan => rfl

lemma clampQ_nonneg (v : PyFloat) : 0 ≤ clampQ v := by
  cases v with
  | num q =>
    simp only [clampQ]
    split
    · linarith
    · exact le_refl 0
  | inf => exact le_refl 0
  | ninf => exact le_refl 0
  | nan => exact le_refl 0

lemma pmax0_of_nonneg (v : PyFloat) (h : isNonnegNum v = true) : pmax0 v = v := by
  cases v with
  | num q =>
    have hq : (0 : ℚ) ≤ q := by simpa [isNonnegNum] using h
    simp only [pmax0]
    split
    · rfl
    · have h0 : q = 0 := le_antisymm (by linarith [not_lt.mp (by assumption)]) hq
      rw [h0]
  | inf => simp [isNonnegNum] at h
  | ninf => simp [isNonnegNum] at h
  | nan => simp [isNonnegNum] at h

lemma clampedTotal_eq_sum (values : List (String × PyFloat))
    (hfin : values.all (fun kv => isFiniteOrNaN kv.2) = true) :
    clampedTotal values = num ((values.map (fun kv => clampQ kv.2)).sum) := by
  rw [clampedTotal]
  have h1 : values.map (fun kv => pmax0 kv.2)
      = (values.map (fun kv => clampQ kv.2)).map num := by
    rw [List.map_map]
    refine List.map_congr_left (fun kv hkv => ?_)
    exact pmax0_eq_clampQ _ (by simpa using (List.all_eq_true.mp hfin kv hkv))
  rw [h1, sumPF_map_num]

/-- Shared description of the uniform-fallback branch. -/
lemma normalize_probs_uniform_eq (values : List (String × PyFloat))
    (h : pleZero (clampedTotal values) = true) :
    normalize_probs values
      = values.map (fun kv => (kv.1, num ((1 : ℚ) / (values.length : ℚ)))) := by
  cases values with
  | nil => simp [normalize_probs]
  | cons kv rest => simp [normalize_probs, h]

/-- On the uniform branch the returned values of a nonempty map sum to 1. -/
lemma normalize_probs_uniform_sum (values : List (String × PyFloat))
    (h : pleZero (clampedTotal values) = true) (hne : values ≠ []) :
    sumPF ((normalize_probs values).map Prod.snd) = num 1 := by
  rw [normalize_probs_uniform_eq values h, List.map_map]
  have h1 : (Prod.snd ∘ fun kv : String × PyFloat =>
        (kv.1, num ((1 : ℚ) / (values.length : ℚ))))
      = fun kv : String × PyFloat => num ((1 : ℚ) / (values.length : ℚ)) := rfl
  rw [h1]
  have h2 : (fun _ : String × PyFloat => num ((1 : ℚ) / (values.length : ℚ)))
      = num ∘ (fun _ : String × PyFloat => ((1 : ℚ) / (values.length : ℚ))) := rfl
  rw [h2, ← List.map_map, sumPF_map_num, sum_map_const]
  have hlen : (values.length : ℚ) ≠ 0 := by
    exact_mod_cast Nat.pos_iff_ne_zero.mp (List.length_pos.mpr hne)
  rw [mul_one_div, div_self hlen]

/-- The keys of the output are the keys of the input, in order. -/
lemma normalize_probs_fst (values : List (String × PyFloat)) :
    (normalize_probs values).map Prod.fst = values.map Prod.fst := by
  rw [normalize_probs]
  split <;> simp

/-! ### Claims C3, C4, C5 — `normalize_probs` -/

/-- C3 (amended): for every raw score mapping whose total after clamping
negatives to zero is ≤ 0, `normalize_probs` returns the uniform
distribution over exactly the input keys, each key getting `1/N`; when
the mapping is nonempty the returned values sum to 1; the empty mapping
returns the empty mapping (whose values sum to 0, not 1). -/
theorem normalize_probs_uniform_on_nonpos (values : List (String × PyFloat))
    (h : pleZero (clampedTotal values) = true) :
    normalize_probs values
      = values.map (fun kv => (kv.1, num ((1 : ℚ) / (values.length : ℚ))))
    ∧ (normalize_probs values).map Prod.fst = values.map Prod.fst
    ∧ (values ≠ [] → sumPF ((normalize_probs values).map Prod.snd) = num 1)
    ∧ normalize_probs ([] : List (String × PyFloat)) = [] :=
  ⟨normalize_probs_uniform_eq values h, normalize_probs_fst values,
   fun hne => normalize_probs_uniform_sum values h hne,
   by rw [normalize_probs]; split <;> rfl⟩

theorem normalize_probs_uniform_on_nonpos_witness :
    normalize_probs [("a", num 0), ("b", num (-2)), ("c", nan)]
      = [("a", num (1/3)), ("b", num (1/3)), ("c", num (1/3))] := by
  have h := (normalize_probs_uniform_on_nonpos
      [("a", num 0), ("b", num (-2)), ("c", nan)]
      (by norm_num [clampedTotal, sumPF, pmax0, padd, pleZero])).1
  rw [h]
  norm_num

/-- C3, counterexample to the claim as stated: the empty mapping has
clamped total ≤ 0, yet the result's values sum to 0, not 1. -/
theorem normalize_probs_uniform_on_nonpos_cx :
    pleZero (clampedTotal ([] : List (String × PyFloat))) = true
    ∧ normalize_probs ([] : List (String × PyFloat)) = []
    ∧ sumPF ((normalize_probs ([] : List (String × PyFloat))).map Prod.snd) = num 0
    ∧ num 0 ≠ num 1 := by
  have h0 : normalize_probs ([] : List (String × PyFloat)) = [] := by
    rw [normalize_probs]; split <;> rfl
  refine ⟨by norm_num [clampedTotal, sumPF, pleZero], h0, ?_, ?_⟩
  · rw [h0]; rfl
  · simp only [ne_eq, PyFloat.num.injEq]
    norm_num

/-- C4 (amended): for every nonempty score mapping whose values are
finite or NaN, `normalize_probs` returns a well-formed distribution:
the keys equal the input keys in order, every value is a rational in
`[0,1]`, and the values sum to exactly 1.  (NaN inputs are clamped to 0
by `max(0.0, ·)`; an infinite input instead escapes the fallback and
produces a NaN output, and the empty mapping sums to 0 — see the
counterexample.) -/
theorem normalize_probs_wellformed (values : List (String × PyFloat))
    (hne : values ≠ [])
    (hfin : values.all (fun kv => isFiniteOrNaN kv.2) = true) :
    (normalize_probs values).map Prod.fst = values.map Prod.fst
    ∧ (∀ kv ∈ normalize_probs values, isProbVal kv.2 = true)
    ∧ sumPF ((normalize_probs values).map Prod.snd) = num 1 := by
  have hct := clampedTotal_eq_sum values hfin
  have hQ0 : ∀ q ∈ values.map (fun kv => clampQ kv.2), 0 ≤ q := by
    intro q hq
    obtain ⟨kv, _, rfl⟩ := List.mem_map.mp hq
    exact clampQ_nonneg _
  by_cases hle : pleZero (clampedTotal values) = true
  · refine ⟨normalize_probs_fst values, ?_, normalize_probs_uniform_sum values hle hne⟩
    intro kv hkv
    rw [normalize_probs_uniform_eq values hle] at hkv
    obtain ⟨kv0, _, rfl⟩ := List.mem_map.mp hkv
    have hlen : (1 : ℚ) ≤ (values.length : ℚ) := by
      exact_mod_cast Nat.one_le_iff_ne_zero.mpr
        (Nat.pos_iff_ne_zero.mp (List.length_pos.mpr hne))
    simp only [isProbVal, decide_eq_true_eq]
    constructor
    · positivity
    · rw [div_le_one (by linarith)]
      exact hlen
  · have hS : 0 < (values.map (fun kv => clampQ kv.2)).sum := by
      have h1 : ¬ ((values.map (fun kv => clampQ kv.2)).sum ≤ 0) := by
        intro hc
        exact hle (by rw [hct]; simpa [pleZero] using hc)
      linarith [not_le.mp h1]
    have hSne : (values.map (fun kv => clampQ kv.2)).sum ≠ 0 := ne_of_gt hS
    have hbody : ∀ kv ∈ values,
        (kv.1, pdiv (pmax0 kv.2) (clampedTotal values))
          = (kv.1, num (clampQ kv.2 / (values.map (fun kv => clampQ kv.2)).sum)) := by
      intro kv hkv
      rw [pmax0_eq_clampQ _ (by simpa using List.all_eq_true.mp hfin kv hkv), hct]
      simp [pdiv, hSne]
    rw [normalize_probs, if_neg hle]
    rw [List.map_congr_left hbody]
    refine ⟨?_, ?_, ?_⟩
    · rw [List.map_map]; rfl
    · intro kv hkv
      obtain ⟨kv0, hkv0, rfl⟩ := List.mem_map.mp hkv
      simp only [isProbVal, decide_eq_true_eq]
      constructor
      · exact div_nonneg (clampQ_nonneg _) (le_of_lt hS)
      · rw [div_le_one hS]
        exact List.single_le_sum hQ0 _ (List.mem_map.mpr ⟨kv0, hkv0, rfl⟩)
    · rw [List.map_map]
      have h2 : (Prod.snd ∘ fun kv : String × PyFloat =>
            (kv.1, num (clampQ kv.2 / (values.map (fun kv => clampQ kv.2)).sum)))
          = num ∘ ((fun q => q / (values.map (fun kv => clampQ kv.2)).sum)
              ∘ (fun kv : String × PyFloat => clampQ kv.2)) := rfl
      rw [h2, ← List.map_map, ← List.map_map, sumPF_map_num, sum_map_div,
        div_self hSne]

theorem normalize_probs_wellformed_witness :
    sumPF ((normalize_probs [("a", num 3), ("b", num 1)]).map Prod.snd) = num 1
    ∧ (normalize_probs [("a", num 3), ("b", num 1)]).map Prod.fst = ["a", "b"] := by
  have h := normalize_probs_wellformed [("a", num 3), ("b", num 1)]
    (by decide) (by rfl)
  exact ⟨h.2.2, by rw [h.1]; rfl⟩

/-- C4, counterexample to the claim as stated: an infinite score is not
absorbed by the uniform-fallback path — `inf/inf` produces a NaN output
value, which is not in `[0,1]`, and the output values sum to NaN. -/
theorem normalize_probs_wellformed_cx :
    normalize_probs [("a", inf), ("b", num 1)] = [("a", nan), ("b", num 0)]
    ∧ isProbVal nan = false
    ∧ sumPF ((normalize_probs [("a", inf), ("b", num 1)]).map Prod.snd) = nan := by
  have h : normalize_probs [("a", inf), ("b", num 1)] = [("a", nan), ("b", num 0)] := by
    norm_num [normalize_probs, clampedTotal, sumPF, pmax0, padd, pleZero, pdiv]
  refine ⟨h, rfl, ?_⟩
  rw [h]
  rfl

/-- C5: `normalize_probs` is exactly idempotent on already-normalized
distributions — non-negative values summing to 1 are returned unchanged. -/
theorem normalize_probs_idem (values : List (String × PyFloat))
    (hpos : values.all (fun kv => isNonnegNum kv.2) = true)
    (hsum : sumPF (values.map Prod.snd) = num 1) :
    normalize_probs values = values := by
  have hct : clampedTotal values = num 1 := by
    rw [clampedTotal]
    have h1 : values.map (fun kv => pmax0 kv.2) = values.map Prod.snd :=
      List.map_congr_left (fun kv hkv =>
        pmax0_of_nonneg _ (by simpa using List.all_eq_true.mp hpos kv hkv))
    rw [h1]
    exact hsum
  have hneg : ¬ (pleZero (clampedTotal values) = true) := by
    rw [hct]
    simp only [pleZero, decide_eq_true_eq]
    norm_num
  rw [normalize_probs, if_neg hneg]
  have hbody : ∀ kv ∈ values,
      (kv.1, pdiv (pmax0 kv.2) (clampedTotal values)) = kv := by
    intro kv hkv
    have hn : isNonnegNum kv.2 = true := by
      simpa using List.all_eq_true.mp hpos kv hkv
    rw [pmax0_of_nonneg _ hn, hct]
    obtain ⟨k, v⟩ := kv
    cases v with
    | num q => norm_num [pdiv]
    | inf => simp [isNonnegNum] at hn
    | ninf => simp [isNonnegNum] at hn
    | nan => simp [isNonnegNum] at hn
  calc values.map (fun kv => (kv.1, pdiv (pmax0 kv.2) (clampedTotal values)))
      = values.map id := List.map_congr_left (fun kv hkv => hbody kv hkv)
    _ = values := List.map_id values

theorem normalize_probs_idem_witness :
    normalize_probs [("a", num (1/4)), ("b", num (3/4))]
      = [("a", num (1/4)), ("b", num (3/4))] :=
  normalize_probs_idem _ (by norm_num [isNonnegNum]) (by norm_num [sumPF, padd])

/-! ### Rank repairer: `ensure_permutation_ranks` (predict.py lines 301–331)

The raw mapping is modelled by the result of the coercion the source
performs: `raw h` is `some r` when `int(raw.get(h))` succeeds with value
`r`, and `none` when the key is missing or `int(...)` raises.  The Python
`assigned` dict is a function to `Option ℤ` (its keys are exactly the
identifiers, initialised to `None`); the `used` set is kept as the list
of its insertions, which the source only ever tests for membership. -/

/-- First pass: walk the identifiers in order; accept a coerced rank that
is in `[1, n]` and not yet used. -/
def rankPass1 (n : ℕ) (raw : String → Option ℤ) :
    List String → (String → Option ℤ) → List ℤ → ((String → Option ℤ) × List ℤ)
  | [], assigned, used => (assigned, used)
  | hid :: rest, assigned, used =>
    match raw hid with
    | some rank =>
      if 1 ≤ rank ∧ rank ≤ (n : ℤ) ∧ ¬ rank ∈ used then
        rankPass1 n raw rest
          (fun h => if h = hid then some rank else assigned h) (rank :: used)
      else
        rankPass1 n raw rest assigned used
    | none => rankPass1 n raw rest assigned used

/-- The ascending list of ranks `[1, ..., n]` (`range(1, n + 1)`). -/
def ranksUpTo (n : ℕ) : List ℤ :=
  (List.range n).map (fun i : ℕ => (i : ℤ) + 1)

/-- Second pass: walk the identifiers again; every still-unassigned
identifier receives `available.pop(0)`.  The `none` result models the
`IndexError` that `pop(0)` would raise on an empty list. -/
def rankPass2 :
    List String → (String → Option ℤ) → List ℤ →
      Option ((String → Option ℤ) × List ℤ)
  | [], assigned, available => some (assigned, available)
  | hid :: rest, assigned, available =>
    match assigned hid with
    | some _ => rankPass2 rest assigned available
    | none =>
      match available with
      | [] => none
      | r :: available2 =>
        rankPass2 rest (fun h => if h = hid then some r else assigned h) available2

/-- Embedding of `ensure_permutation_ranks`.  Returns `none` exactly when
the fill pass would raise (`available.pop(0)` on an empty list). -/
def ensure_permutation_ranks (horse_ids : List String) (raw : String → Option ℤ) :
    Option (String → Option ℤ) :=
  match rankPass2 horse_ids
      (rankPass1 horse_ids.length raw horse_ids (fun _ => none) []).1
      ((ranksUpTo horse_ids.length).filter
        (fun r => decide (¬ r ∈ (rankPass1 horse_ids.length raw horse_ids (fun _ => none) []).2))) with
  | some p2 => some p2.1
  | none => none

/-- The raw mapping of the worked example: `{x: 2, y: 2, z: 5}`. -/
def exampleRaw : String → Option ℤ :=
  fun h => if h = "x" then some 2 else if h = "y" then some 2 else
    if h = "z" then some 5 else none

example :
    (ensure_permutation_ranks ["x", "y", "z"] exampleRaw).map
        (fun f => (f "x", f "y", f "z"))
      = some (some 2, some 1, some 3) := by decide

/-- Invariants carried through the first pass: the used list stays
duplicate-free and inside `[1, n]`; assigned ranks come from the raw
mapping and are recorded as used; the set of assigned identifiers grows
only by walked identifiers and counts exactly the used ranks. -/
lemma rankPass1_invariant (n : ℕ) (raw : String → Option ℤ) (l : List String) :
    ∀ (a : String → Option ℤ) (used : List ℤ) (S : Finset String),
      used.Nodup →
      (∀ r ∈ used, 1 ≤ r ∧ r ≤ (n : ℤ)) →
      (∀ h r, a h = some r → raw h = some r ∧ r ∈ used) →
      (∀ h, (a h).isSome = true ↔ h ∈ S) →
      S.card = used.length →
      (∀ h1 h2 r, a h1 = some r → a h2 = some r → h1 = h2) →
      (rankPass1 n raw l a used).2.Nodup
      ∧ (∀ r ∈ (rankPass1 n raw l a used).2, 1 ≤ r ∧ r ≤ (n : ℤ))
      ∧ (∀ h r, (rankPass1 n raw l a used).1 h = some r →
          raw h = some r ∧ r ∈ (rankPass1 n raw l a used).2)
      ∧ (∀ h1 h2 r, (rankPass1 n raw l a used).1 h1 = some r →
          (rankPass1 n raw l a used).1 h2 = some r → h1 = h2)
      ∧ ∃ T : Finset String,
          (∀ h, ((rankPass1 n raw l a used).1 h).isSome = true ↔ h ∈ T)
          ∧ T.card = (rankPass1 n raw l a used).2.length
          ∧ T ⊆ S ∪ l.toFinset := by
  induction l with
  | nil =>
    intro a used S h1 h2 h3 h4 h5 h6
    exact ⟨h1, h2, h3, h6, S, h4, h5, by simp⟩
  | cons hid rest ih =>
    intro a used S h1 h2 h3 h4 h5 h6
    have hsub : S ∪ rest.toFinset ⊆ S ∪ (hid :: rest).toFinset := by
      rw [List.toFinset_cons]
      exact Finset.union_subset_union_right (Finset.subset_insert _ _)
    cases hr : raw hid with
    | none =>
      simp only [rankPass1, hr]
      obtain ⟨g1, g2, g3, gi, T, g4, g5, g6⟩ := ih a used S h1 h2 h3 h4 h5 h6
      exact ⟨g1, g2, g3, gi, T, g4, g5, g6.trans hsub⟩
    | some rank =>
      simp only [rankPass1, hr]
      by_cases hc : 1 ≤ rank ∧ rank ≤ (n : ℤ) ∧ ¬ rank ∈ used
      · rw [if_pos hc]
        have hhid : hid ∉ S := by
          intro hmem
          have hs : (a hid).isSome = true := (h4 hid).mpr hmem
          obtain ⟨r0, hr0⟩ := Option.isSome_iff_exists.mp hs
          obtain ⟨hraw0, hused0⟩ := h3 hid r0 hr0
          rw [hr] at hraw0
          injection hraw0 with h0
          exact hc.2.2 (by rw [h0]; exact hused0)
        obtain ⟨g1, g2, g3, gi, T, g4, g5, g6⟩ :=
          ih (fun h => if h = hid then some rank else a h) (rank :: used)
            (insert hid S)
            (List.nodup_cons.mpr ⟨hc.2.2, h1⟩)
            (by
              intro r hrr
              rcases List.mem_cons.mp hrr with hrr | hrr
              · exact hrr ▸ ⟨hc.1, hc.2.1⟩
              · exact h2 r hrr)
            (by
              intro h r hhr
              by_cases hh : h = hid
              · subst hh
                have hhr2 : some rank = some r := by simpa using hhr
                injection hhr2 with h0
                exact ⟨by rw [hr]; exact congrArg some h0,
                  by rw [← h0]; exact List.mem_cons_self _ _⟩
              · simp only [if_neg hh] at hhr
                obtain ⟨ha, hb⟩ := h3 h r hhr
                exact ⟨ha, List.mem_cons_of_mem _ hb⟩)
            (by
              intro h
              by_cases hh : h = hid
              · subst hh
                simp [Finset.mem_insert]
              · simp only [if_neg hh, Finset.mem_insert]
                rw [h4 h]
                simp [hh])
            (by
              rw [Finset.card_insert_of_not_mem hhid, h5, List.length_cons])
            (by
              intro hx1 hx2 r hv1 hv2
              have hv1b : (if hx1 = hid then some rank else a hx1) = some r := hv1
              have hv2b : (if hx2 = hid then some rank else a hx2) = some r := hv2
              by_cases ha1 : hx1 = hid <;> by_cases ha2 : hx2 = hid
              · rw [ha1, ha2]
              · exfalso
                rw [if_pos ha1] at hv1b
                rw [if_neg ha2] at hv2b
                injection hv1b with he
                exact hc.2.2 (by rw [he]; exact (h3 hx2 r hv2b).2)
              · exfalso
                rw [if_neg ha1] at hv1b
                rw [if_pos ha2] at hv2b
                injection hv2b with he
                exact hc.2.2 (by rw [he]; exact (h3 hx1 r hv1b).2)
              · rw [if_neg ha1] at hv1b
                rw [if_neg ha2] at hv2b
                exact h6 hx1 hx2 r hv1b hv2b)
        refine ⟨g1, g2, g3, gi, T, g4, g5, g6.trans ?_⟩
        rw [List.toFinset_cons, Finset.union_insert, Finset.insert_union]
      · rw [if_neg hc]
        obtain ⟨g1, g2, g3, gi, T, g4, g5, g6⟩ := ih a used S h1 h2 h3 h4 h5 h6
        exact ⟨g1, g2, g3, gi, T, g4, g5, g6.trans hsub⟩

lemma mem_ranksUpTo (n : ℕ) (r : ℤ) :
    r ∈ ranksUpTo n ↔ 1 ≤ r ∧ r ≤ (n : ℤ) := by
  show r ∈ (List.range n).map (fun i : ℕ => (i : ℤ) + 1) ↔ _
  simp only [List.mem_map, List.mem_range]
  constructor
  · rintro ⟨i, hi, rfl⟩
    constructor <;> omega
  · rintro ⟨hl, hu⟩
    exact ⟨(r - 1).toNat, by omega, by omega⟩

lemma ranksUpTo_nodup (n : ℕ) : (ranksUpTo n).Nodup := by
  show ((List.range n).map (fun i : ℕ => (i : ℤ) + 1)).Nodup
  refine List.Nodup.map ?_ (List.nodup_range n)
  intro i j hij
  have hij2 : (i : ℤ) + 1 = (j : ℤ) + 1 := hij
  omega

lemma ranksUpTo_length (n : ℕ) : (ranksUpTo n).length = n := by
  show ((List.range n).map (fun i : ℕ => (i : ℤ) + 1)).length = n
  rw [List.length_map, List.length_range]

lemma length_filter_split {α : Type} (l : List α) (p : α → Bool) :
    (l.filter p).length + (l.filter (fun x => ! p x)).length = l.length := by
  induction l with
  | nil => rfl
  | cons x xs ih =>
    by_cases hx : p x = true <;>
      simp [List.filter_cons, hx] <;> omega

/-- The list of unclaimed ranks has length `n - used.length` when the used
ranks are distinct and lie in `[1, n]`. -/
lemma available_length (n : ℕ) (used : List ℤ) (hnd : used.Nodup)
    (hb : ∀ r ∈ used, 1 ≤ r ∧ r ≤ (n : ℤ)) :
    ((ranksUpTo n).filter (fun r => decide (¬ r ∈ used))).length
      = n - used.length := by
  have hmemlen :
      ((ranksUpTo n).filter (fun r => decide (r ∈ used))).length = used.length := by
    have hnd2 : ((ranksUpTo n).filter (fun r => decide (r ∈ used))).Nodup :=
      (ranksUpTo_nodup n).filter _
    have hset : ((ranksUpTo n).filter (fun r => decide (r ∈ used))).toFinset
        = used.toFinset := by
      ext r
      simp only [List.mem_toFinset, List.mem_filter, decide_eq_true_eq]
      exact ⟨fun hx => hx.2, fun hx => ⟨(mem_ranksUpTo n r).mpr (hb r hx), hx⟩⟩
    calc ((ranksUpTo n).filter (fun r => decide (r ∈ used))).length
        = ((ranksUpTo n).filter (fun r => decide (r ∈ used))).toFinset.card :=
          (List.toFinset_card_of_nodup hnd2).symm
      _ = used.toFinset.card := by rw [hset]
      _ = used.length := List.toFinset_card_of_nodup hnd
  have hsplit := length_filter_split (ranksUpTo n) (fun r => decide (r ∈ used))
  have hcongr : (ranksUpTo n).filter (fun r => ! decide (r ∈ used))
      = (ranksUpTo n).filter (fun r => decide (¬ r ∈ used)) := by
    refine List.filter_congr (fun r _ => ?_)
    by_cases hr : r ∈ used <;> simp [hr]
  rw [hcongr] at hsplit
  rw [ranksUpTo_length] at hsplit
  omega

/-- If at most `|available|` distinct identifiers are unassigned, the fill
pass never pops an empty list. -/
lemma rankPass2_isSome (l : List String) :
    ∀ (a : String → Option ℤ) (v : List ℤ),
      (l.filter (fun h => (a h).isNone)).toFinset.card ≤ v.length →
      (rankPass2 l a v).isSome = true := by
  induction l with
  | nil => intro a v _; rfl
  | cons hid rest ih =>
    intro a v hcard
    cases ha : a hid with
    | some r0 =>
      simp only [rankPass2, ha]
      apply ih
      have hfeq : (hid :: rest).filter (fun h => (a h).isNone)
          = rest.filter (fun h => (a h).isNone) := by
        simp [List.filter_cons, ha]
      rw [hfeq] at hcard
      exact hcard
    | none =>
      have hfeq : (hid :: rest).filter (fun h => (a h).isNone)
          = hid :: rest.filter (fun h => (a h).isNone) := by
        simp [List.filter_cons, ha]
      rw [hfeq] at hcard
      cases v with
      | nil =>
        exfalso
        have hpos : 0 < (hid :: rest.filter (fun h => (a h).isNone)).toFinset.card :=
          Finset.card_pos.mpr ⟨hid, by simp⟩
        simp only [List.length_nil] at hcard
        omega
      | cons r v2 =>
        simp only [rankPass2, ha]
        apply ih
        have hset : (rest.filter (fun h =>
              ((fun x => if x = hid then some r else a x) h).isNone)).toFinset
            = ((rest.filter (fun h => (a h).isNone)).toFinset).erase hid := by
          ext x
          simp only [List.mem_toFinset, List.mem_filter, Finset.mem_erase]
          by_cases hx : x = hid
          · simp [hx]
          · simp [hx, and_comm]
        rw [hset]
        rw [List.toFinset_cons] at hcard
        simp only [List.length_cons] at hcard
        by_cases hhid : hid ∈ (rest.filter (fun h => (a h).isNone)).toFinset
        · rw [Finset.insert_eq_self.mpr hhid] at hcard
          rw [Finset.card_erase_of_mem hhid]
          omega
        · rw [Finset.card_insert_of_not_mem hhid] at hcard
          rw [Finset.erase_eq_of_not_mem hhid]
          omega

/-- Properties of the fill pass: it preserves existing assignments, fills
every walked identifier, draws new ranks only from `available`, and keeps
the assignment injective. -/
lemma rankPass2_props (l : List String) :
    ∀ (a : String → Option ℤ) (v : List ℤ) (out : (String → Option ℤ) × List ℤ),
      rankPass2 l a v = some out →
      v.Nodup →
      (∀ h r, a h = some r → ¬ r ∈ v) →
      (∀ h1 h2 r, a h1 = some r → a h2 = some r → h1 = h2) →
      (∀ h r, a h = some r → out.1 h = some r)
      ∧ (∀ h, h ∈ l → (out.1 h).isSome = true)
      ∧ (∀ h r, out.1 h = some r → a h = some r ∨ r ∈ v)
      ∧ (∀ h1 h2 r, out.1 h1 = some r → out.1 h2 = some r → h1 = h2) := by
  induction l with
  | nil =>
    intro a v out hout hnd hnin hinj
    have heq : (a, v) = out := by simpa [rankPass2] using hout
    rw [← heq]
    refine ⟨fun h r hr => hr, ?_, fun h r hr => Or.inl hr, hinj⟩
    intro h hh
    cases hh
  | cons hid rest ih =>
    intro a v out hout hnd hnin hinj
    cases ha : a hid with
    | some r0 =>
      simp only [rankPass2, ha] at hout
      obtain ⟨p1, p2, p3, p4⟩ := ih a v out hout hnd hnin hinj
      refine ⟨p1, ?_, p3, p4⟩
      intro h hh
      rcases List.mem_cons.mp hh with rfl | hh
      · rw [p1 h r0 ha]; rfl
      · exact p2 h hh
    | none =>
      cases v with
      | nil =>
        simp only [rankPass2, ha] at hout
        exact Option.noConfusion hout
      | cons r v2 =>
        simp only [rankPass2, ha] at hout
        have hnd1 := List.nodup_cons.mp hnd
        have hnin2 : ∀ h rr, (fun x => if x = hid then some r else a x) h = some rr →
            ¬ rr ∈ v2 := by
          intro h rr hh
          have hhb : (if h = hid then some r else a h) = some rr := hh
          by_cases hx : h = hid
          · rw [if_pos hx] at hhb
            injection hhb with he
            rw [← he]
            exact hnd1.1
          · rw [if_neg hx] at hhb
            intro hc
            exact hnin h rr hhb (List.mem_cons_of_mem _ hc)
        have hinj2 : ∀ h1 h2 rr,
            (fun x => if x = hid then some r else a x) h1 = some rr →
            (fun x => if x = hid then some r else a x) h2 = some rr → h1 = h2 := by
          intro h1 h2 rr hh1 hh2
          have hh1b : (if h1 = hid then some r else a h1) = some rr := hh1
          have hh2b : (if h2 = hid then some r else a h2) = some rr := hh2
          by_cases hx1 : h1 = hid <;> by_cases hx2 : h2 = hid
          · rw [hx1, hx2]
          · exfalso
            rw [if_pos hx1] at hh1b
            rw [if_neg hx2] at hh2b
            injection hh1b with he
            exact hnin h2 rr hh2b (by rw [← he]; exact List.mem_cons_self _ _)
          · exfalso
            rw [if_neg hx1] at hh1b
            rw [if_pos hx2] at hh2b
            injection hh2b with he
            exact hnin h1 rr hh1b (by rw [← he]; exact List.mem_cons_self _ _)
          · rw [if_neg hx1] at hh1b
            rw [if_neg hx2] at hh2b
            exact hinj h1 h2 rr hh1b hh2b
        obtain ⟨p1, p2, p3, p4⟩ := ih _ v2 out hout hnd1.2 hnin2 hinj2
        refine ⟨?_, ?_, ?_, p4⟩
        · intro h rr hh
          apply p1
          show (if h = hid then some r else a h) = some rr
          by_cases hx : h = hid
          · exfalso
            rw [hx, ha] at hh
            exact Option.noConfusion hh
          · rw [if_neg hx]
            exact hh
        · intro h hh
          rcases List.mem_cons.mp hh with rfl | hh
          · rw [p1 h r (by simp)]
            rfl
          · exact p2 h hh
        · intro h rr hh
          rcases p3 h rr hh with hp | hp
          · have hpb : (if h = hid then some r else a h) = some rr := hp
            by_cases hx : h = hid
            · rw [if_pos hx] at hpb
              injection hpb with he
              exact Or.inr (by rw [← he]; exact List.mem_cons_self _ _)
            · rw [if_neg hx] at hpb
              exact Or.inl hpb
          · exact Or.inr (List.mem_cons_of_mem _ hp)

/-- At the start of the fill pass, the number of distinct unassigned
identifiers is at most the number of unclaimed ranks. -/
lemma unassigned_card_le (horse_ids : List String) (raw : String → Option ℤ) :
    (horse_ids.filter (fun h =>
        ((rankPass1 horse_ids.length raw horse_ids (fun _ => none) []).1 h).isNone)).toFinset.card
      ≤ ((ranksUpTo horse_ids.length).filter
          (fun r => decide (¬ r ∈ (rankPass1 horse_ids.length raw horse_ids (fun _ => none) []).2))).length := by
  obtain ⟨g1, g2, g3, gi, T, g4, g5, g6⟩ :=
    rankPass1_invariant horse_ids.length raw horse_ids (fun _ => none) [] ∅
      List.nodup_nil (by intro r hr; cases hr)
      (by intro h r hr; exact Option.noConfusion hr)
      (by intro h; simp)
      (by simp)
      (by intro h1 h2 r hr; exact Option.noConfusion hr)
  have hsub : T ⊆ horse_ids.toFinset := by
    intro x hx
    have := g6 hx
    simpa using this
  have hset : (horse_ids.filter (fun h =>
      ((rankPass1 horse_ids.length raw horse_ids (fun _ => none) []).1 h).isNone)).toFinset
      = horse_ids.toFinset \ T := by
    ext x
    simp only [List.mem_toFinset, List.mem_filter, Finset.mem_sdiff]
    constructor
    · rintro ⟨hx1, hx2⟩
      refine ⟨hx1, fun hxT => ?_⟩
      have hs := (g4 x).mpr hxT
      rw [Option.isNone_iff_eq_none] at hx2
      rw [hx2] at hs
      exact Bool.noConfusion hs
    · rintro ⟨hx1, hx2⟩
      refine ⟨hx1, ?_⟩
      cases hv : (rankPass1 horse_ids.length raw horse_ids (fun _ => none) []).1 x with
      | none => rfl
      | some r =>
        exfalso
        exact hx2 ((g4 x).mp (by rw [hv]; rfl))
  rw [hset, available_length horse_ids.length _ g1 g2, ← g5]
  calc (horse_ids.toFinset \ T).card
      = horse_ids.toFinset.card - T.card := Finset.card_sdiff hsub
    _ ≤ horse_ids.length - T.card :=
        Nat.sub_le_sub_right horse_ids.toFinset_card_le _

/-- The fill pass of `ensure_permutation_ranks` never pops an empty list:
the function always returns a result. -/
lemma ensure_isSome (horse_ids : List String) (raw : String → Option ℤ) :
    (ensure_permutation_ranks horse_ids raw).isSome = true := by
  obtain ⟨out, hout⟩ := Option.isSome_iff_exists.mp
    (rankPass2_isSome horse_ids _ _ (unassigned_card_le horse_ids raw))
  simp only [ensure_permutation_ranks, hout]
  rfl

/-- C10: the fill pass of `ensure_permutation_ranks` never fails — for
every identifier list (duplicates included) and every raw mapping, the
number of still-unassigned identifiers never exceeds the number of
unclaimed ranks, so `available.pop(0)` is never attempted on an empty
list and the function always returns a result instead of raising. -/
theorem ensure_permutation_ranks_total (horse_ids : List String)
    (raw : String → Option ℤ) :
    (ensure_permutation_ranks horse_ids raw).isSome = true :=
  ensure_isSome horse_ids raw

/-- C1: for every list of distinct identifiers and every raw rank mapping,
`ensure_permutation_ranks` returns a total mapping giving every identifier
a rank in `[1, N]`, and the multiset of assigned ranks is exactly
`{1, ..., N}` — a bijection with no repeats or gaps. -/
theorem ensure_permutation_ranks_bijection (horse_ids : List String)
    (raw : String → Option ℤ) (hnd : horse_ids.Nodup) :
    ∃ f, ensure_permutation_ranks horse_ids raw = some f
      ∧ (∀ h ∈ horse_ids, ∃ r, f h = some r ∧ 1 ≤ r ∧ r ≤ (horse_ids.length : ℤ))
      ∧ List.Perm (horse_ids.map (fun h => (f h).getD 0))
          (ranksUpTo horse_ids.length) := by
  obtain ⟨g1, g2, g3, gi, T, g4, g5, g6⟩ :=
    rankPass1_invariant horse_ids.length raw horse_ids (fun _ => none) [] ∅
      List.nodup_nil (by intro r hr; cases hr)
      (by intro h r hr; exact Option.noConfusion hr)
      (by intro h; simp) (by simp)
      (by intro h1 h2 r hr; exact Option.noConfusion hr)
  obtain ⟨out, hout⟩ := Option.isSome_iff_exists.mp
    (rankPass2_isSome horse_ids _ _ (unassigned_card_le horse_ids raw))
  have havnd : ((ranksUpTo horse_ids.length).filter
      (fun r => decide (¬ r ∈ (rankPass1 horse_ids.length raw horse_ids
        (fun _ => none) []).2))).Nodup :=
    (ranksUpTo_nodup _).filter _
  have hnin : ∀ h r,
      (rankPass1 horse_ids.length raw horse_ids (fun _ => none) []).1 h = some r →
      ¬ r ∈ ((ranksUpTo horse_ids.length).filter
        (fun r => decide (¬ r ∈ (rankPass1 horse_ids.length raw horse_ids
          (fun _ => none) []).2))) := by
    intro h r har hmem
    have hu := (g3 h r har).2
    have hf := List.of_mem_filter hmem
    simp only [decide_eq_true_eq] at hf
    exact hf hu
  obtain ⟨p1, p2, p3, p4⟩ := rankPass2_props horse_ids _ _ out hout havnd hnin gi
  have hens : ensure_permutation_ranks horse_ids raw = some out.1 := by
    simp only [ensure_permutation_ranks, hout]
  refine ⟨out.1, hens, ?_, ?_⟩
  · intro h hh
    obtain ⟨r, hr⟩ := Option.isSome_iff_exists.mp (p2 h hh)
    refine ⟨r, hr, ?_⟩
    rcases p3 h r hr with hp | hp
    · exact g2 r (g3 h r hp).2
    · exact (mem_ranksUpTo _ r).mp (List.mem_of_mem_filter hp)
  · have hLnd : (horse_ids.map (fun h => (out.1 h).getD 0)).Nodup := by
      refine List.Nodup.map_on ?_ hnd
      intro x hx y hy hxy
      have hxy2 : (out.1 x).getD 0 = (out.1 y).getD 0 := hxy
      obtain ⟨rx, hrx⟩ := Option.isSome_iff_exists.mp (p2 x hx)
      obtain ⟨ry, hry⟩ := Option.isSome_iff_exists.mp (p2 y hy)
      rw [hrx, hry] at hxy2
      simp only [Option.getD_some] at hxy2
      exact p4 x y rx hrx (by rw [hry]; exact congrArg some hxy2.symm)
    have hLsub : ∀ x ∈ horse_ids.map (fun h => (out.1 h).getD 0),
        x ∈ ranksUpTo horse_ids.length := by
      intro x hx
      obtain ⟨h, hh, rfl⟩ := List.mem_map.mp hx
      obtain ⟨r, hr⟩ := Option.isSome_iff_exists.mp (p2 h hh)
      rw [hr]
      simp only [Option.getD_some]
      rcases p3 h r hr with hp | hp
      · exact (mem_ranksUpTo _ r).mpr (g2 r (g3 h r hp).2)
      · exact List.mem_of_mem_filter hp
    have hfs : (horse_ids.map (fun h => (out.1 h).getD 0)).toFinset
        = (ranksUpTo horse_ids.length).toFinset := by
      apply Finset.eq_of_subset_of_card_le
      · intro x hx
        exact List.mem_toFinset.mpr (hLsub x (List.mem_toFinset.mp hx))
      · rw [List.toFinset_card_of_nodup hLnd,
          List.toFinset_card_of_nodup (ranksUpTo_nodup _),
          List.length_map, ranksUpTo_length]
    exact List.perm_of_nodup_nodup_toFinset_eq hLnd (ranksUpTo_nodup _) hfs

theorem ensure_permutation_ranks_bijection_witness :
    (ensure_permutation_ranks ["x", "y", "z"] exampleRaw).isSome = true := by
  obtain ⟨f, hf, -, -⟩ :=
    ensure_permutation_ranks_bijection ["x", "y", "z"] exampleRaw (by decide)
  rw [hf]
  rfl

/-! ### C2: first-claim-wins, checked against a spec-worded reformulation -/

/-- One step of the first walk as §4.4 of the spec words it: accept the
coerced rank iff it lies in `[1, n]` and has not already been claimed by
an earlier identifier in this same walk. -/
def specStep (n : ℕ) (raw : String → Option ℤ) (acc : List (String × ℤ))
    (h : String) : List (String × ℤ) :=
  match raw h with
  | some r =>
    if 1 ≤ r ∧ r ≤ (n : ℤ) ∧ ¬ r ∈ acc.map Prod.snd then acc ++ [(h, r)] else acc
  | none => acc

/-- The claims accepted by the first walk, in walk order. -/
def specClaimed (n : ℕ) (raw : String → Option ℤ) (ids : List String) :
    List (String × ℤ) :=
  ids.foldl (specStep n raw) []

/-- Association-list lookup, first match wins. -/
def assocFind : List (String × ℤ) → String → Option ℤ
  | [], _ => none
  | p :: rest, h => if p.1 = h then some p.2 else assocFind rest h

/-- The rank repair exactly as the spec words it: the accepted first
claims, then the still-unassigned identifiers in canonical order zipped
with the ascending list of unclaimed ranks. -/
def specRepair (ids : List String) (raw : String → Option ℤ) : String → Option ℤ :=
  fun h =>
    match assocFind (specClaimed ids.length raw ids) h with
    | some r => some r
    | none =>
      assocFind
        ((ids.filter (fun x =>
            decide (¬ x ∈ (specClaimed ids.length raw ids).map Prod.fst))).zip
          ((ranksUpTo ids.length).filter (fun r =>
            decide (¬ r ∈ (specClaimed ids.length raw ids).map Prod.snd)))) h

lemma assocFind_some_mem (l : List (String × ℤ)) (h : String) (r : ℤ)
    (hf : assocFind l h = some r) : (h, r) ∈ l := by
  induction l with
  | nil => exact Option.noConfusion hf
  | cons p rest ih =>
    rw [assocFind] at hf
    by_cases hp : p.1 = h
    · rw [if_pos hp] at hf
      injection hf with he
      have hpe : p = (h, r) := by
        rw [Prod.ext_iff]
        exact ⟨hp, he⟩
      rw [← hpe]
      exact List.mem_cons_self _ _
    · rw [if_neg hp] at hf
      exact List.mem_cons_of_mem _ (ih hf)

lemma assocFind_ne_none_of_mem (l : List (String × ℤ)) (h : String) (r : ℤ)
    (hm : (h, r) ∈ l) : assocFind l h ≠ none := by
  induction l with
  | nil => cases hm
  | cons p rest ih =>
    rw [assocFind]
    rcases List.mem_cons.mp hm with rfl | hm
    · rw [if_pos rfl]
      exact fun hc => Option.noConfusion hc
    · by_cases hp : p.1 = h
      · rw [if_pos hp]
        exact fun hc => Option.noConfusion hc
      · rw [if_neg hp]
        exact ih hm

/-- The first pass of the source agrees with the fold the spec describes:
same accepted claims, same used ranks. -/
lemma rankPass1_specClaimed (n : ℕ) (raw : String → Option ℤ) (l : List String) :
    ∀ (a : String → Option ℤ) (used : List ℤ) (acc : List (String × ℤ)),
      (∀ h r, a h = some r ↔ (h, r) ∈ acc) →
      (∀ r, r ∈ used ↔ r ∈ acc.map Prod.snd) →
      (∀ p ∈ acc, raw p.1 = some p.2) →
      (∀ h r, (rankPass1 n raw l a used).1 h = some r ↔
          (h, r) ∈ l.foldl (specStep n raw) acc)
      ∧ (∀ r, r ∈ (rankPass1 n raw l a used).2 ↔
          r ∈ (l.foldl (specStep n raw) acc).map Prod.snd)
      ∧ (∀ p ∈ l.foldl (specStep n raw) acc, raw p.1 = some p.2) := by
  induction l with
  | nil =>
    intro a used acc i1 i2 i3
    exact ⟨i1, i2, i3⟩
  | cons hid rest ih =>
    intro a used acc i1 i2 i3
    cases hr : raw hid with
    | none =>
      simp only [rankPass1, List.foldl_cons, specStep, hr]
      exact ih a used acc i1 i2 i3
    | some rank =>
      simp only [rankPass1, List.foldl_cons, specStep, hr]
      by_cases hc : 1 ≤ rank ∧ rank ≤ (n : ℤ) ∧ ¬ rank ∈ used
      · have hc2 : 1 ≤ rank ∧ rank ≤ (n : ℤ) ∧ ¬ rank ∈ acc.map Prod.snd :=
          ⟨hc.1, hc.2.1, fun hm => hc.2.2 ((i2 rank).mpr hm)⟩
        rw [if_pos hc, if_pos hc2]
        apply ih
        · intro h r
          constructor
          · intro hh
            have hhb : (if h = hid then some rank else a h) = some r := hh
            by_cases hx : h = hid
            · rw [if_pos hx] at hhb
              injection hhb with he
              rw [hx, ← he]
              exact List.mem_append.mpr (Or.inr (List.mem_singleton.mpr rfl))
            · rw [if_neg hx] at hhb
              exact List.mem_append.mpr (Or.inl ((i1 h r).mp hhb))
          · intro hh
            show (if h = hid then some rank else a h) = some r
            rcases List.mem_append.mp hh with hh | hh
            · by_cases hx : h = hid
              · exfalso
                have hrawh := i3 (h, r) hh
                rw [hx, hr] at hrawh
                injection hrawh with he
                refine hc2.2.2 ?_
                rw [he]
                exact List.mem_map.mpr ⟨(h, r), hh, rfl⟩
              · rw [if_neg hx]
                exact (i1 h r).mpr hh
            · have heq := List.mem_singleton.mp hh
              have hx : h = hid := congrArg Prod.fst heq
              have hrr : r = rank := congrArg Prod.snd heq
              rw [if_pos hx, hrr]
        · intro r
          rw [List.map_append]
          constructor
          · intro hm
            rcases List.mem_cons.mp hm with rfl | hm
            · exact List.mem_append.mpr (Or.inr (by simp))
            · exact List.mem_append.mpr (Or.inl ((i2 r).mp hm))
          · intro hm
            rcases List.mem_append.mp hm with hm | hm
            · exact List.mem_cons_of_mem _ ((i2 r).mpr hm)
            · simp only [List.map_cons, List.map_nil, List.mem_singleton] at hm
              rw [hm]
              exact List.mem_cons_self _ _
        · intro p hp
          rcases List.mem_append.mp hp with hp | hp
          · exact i3 p hp
          · rw [List.mem_singleton.mp hp]
            exact hr
      · have hc2 : ¬ (1 ≤ rank ∧ rank ≤ (n : ℤ) ∧ ¬ rank ∈ acc.map Prod.snd) := by
          intro hcc
          exact hc ⟨hcc.1, hcc.2.1, fun hm => hcc.2.2 ((i2 rank).mp hm)⟩
        rw [if_neg hc, if_neg hc2]
        exact ih a used acc i1 i2 i3

/-- The fill pass never clears an existing assignment. -/
lemma rankPass2_preserves (l : List String) :
    ∀ (a : String → Option ℤ) (v : List ℤ) (out : (String → Option ℤ) × List ℤ),
      rankPass2 l a v = some out →
      ∀ h r, a h = some r → out.1 h = some r := by
  induction l with
  | nil =>
    intro a v out hout h r hr
    have heq : (a, v) = out := by simpa [rankPass2] using hout
    rw [← heq]
    exact hr
  | cons hid rest ih =>
    intro a v out hout h r hr
    cases haid : a hid with
    | some r0 =>
      simp only [rankPass2, haid] at hout
      exact ih a v out hout h r hr
    | none =>
      cases v with
      | nil =>
        simp only [rankPass2, haid] at hout
        exact Option.noConfusion hout
      | cons rr v2 =>
        simp only [rankPass2, haid] at hout
        apply ih _ v2 out hout
        show (if h = hid then some rr else a h) = some r
        by_cases hx : h = hid
        · exfalso
          rw [hx, haid] at hr
          exact Option.noConfusion hr
        · rw [if_neg hx]
          exact hr

/-- On distinct identifiers the fill pass assigns exactly the positional
zip of the unassigned identifiers with the available ranks. -/
lemma rankPass2_fill (l : List String) :
    ∀ (a : String → Option ℤ) (v : List ℤ) (out : (String → Option ℤ) × List ℤ),
      rankPass2 l a v = some out → l.Nodup →
      ∀ h, a h = none →
        out.1 h = assocFind ((l.filter (fun x => (a x).isNone)).zip v) h := by
  induction l with
  | nil =>
    intro a v out hout _ h ha
    have heq : (a, v) = out := by simpa [rankPass2] using hout
    rw [← heq]
    exact ha
  | cons hid rest ih =>
    intro a v out hout hnd h ha
    have hnd1 := List.nodup_cons.mp hnd
    cases haid : a hid with
    | some r0 =>
      simp only [rankPass2, haid] at hout
      have hfeq : (hid :: rest).filter (fun x => (a x).isNone)
          = rest.filter (fun x => (a x).isNone) := by
        simp [List.filter_cons, haid]
      rw [hfeq]
      exact ih a v out hout hnd1.2 h ha
    | none =>
      cases v with
      | nil =>
        simp only [rankPass2, haid] at hout
        exact Option.noConfusion hout
      | cons r v2 =>
        simp only [rankPass2, haid] at hout
        have hfeq : (hid :: rest).filter (fun x => (a x).isNone)
            = hid :: rest.filter (fun x => (a x).isNone) := by
          simp [List.filter_cons, haid]
        rw [hfeq]
        by_cases hx : h = hid
        · subst hx
          have hpres := rankPass2_preserves rest _ v2 out hout h r (by simp)
          rw [hpres]
          show some r = assocFind ((h, r) :: _) h
          rw [assocFind, if_pos rfl]
        · have hih := ih _ v2 out hout hnd1.2 h
            (by show (if h = hid then some r else a h) = none; rw [if_neg hx]; exact ha)
          have hfeq2 : rest.filter (fun x =>
              ((fun y : String => if y = hid then some r else a y) x).isNone)
              = rest.filter (fun x => (a x).isNone) := by
            refine List.filter_congr (fun x hxm => ?_)
            have hxne : x ≠ hid := fun hcc => hnd1.1 (by rw [← hcc]; exact hxm)
            show (if x = hid then some r else a x).isNone = (a x).isNone
            rw [if_neg hxne]
          rw [hfeq2] at hih
          rw [hih]
          show assocFind _ h = assocFind ((hid, r) :: _) h
          rw [assocFind, if_neg (fun hcc => hx (by exact hcc.symm))]
          rfl

/-- C2: conflict resolution is first-claim-wins in canonical identifier
order — on distinct identifiers `ensure_permutation_ranks` computes
exactly the spec-worded two-pass repair `specRepair` (accept a coerced
rank only if it is in `[1, N]` and unclaimed by an earlier identifier;
then give each still-unassigned identifier, in canonical order, the
next-smallest unclaimed rank); in particular ids `[x, y, z]` with raw
`{x: 2, y: 2, z: 5}` yield `{x: 2, y: 1, z: 3}`. -/
theorem ensure_permutation_ranks_spec_eq (ids : List String)
    (raw : String → Option ℤ) (hnd : ids.Nodup) :
    ensure_permutation_ranks ids raw = some (specRepair ids raw)
    ∧ (ensure_permutation_ranks ["x", "y", "z"] exampleRaw).map
        (fun f => (f "x", f "y", f "z")) = some (some 2, some 1, some 3) := by
  refine ⟨?_, by decide⟩
  obtain ⟨out, hout⟩ := Option.isSome_iff_exists.mp
    (rankPass2_isSome ids _ _ (unassigned_card_le ids raw))
  have hens : ensure_permutation_ranks ids raw = some out.1 := by
    simp only [ensure_permutation_ranks, hout]
  rw [hens]
  refine congrArg some (funext (fun h => ?_))
  obtain ⟨A1, A2, A3⟩ :=
    rankPass1_specClaimed ids.length raw ids (fun _ => none) [] []
      (fun h r => ⟨fun hr => Option.noConfusion hr,
        fun hm => absurd hm (List.not_mem_nil _)⟩)
      (fun r => ⟨fun hm => absurd hm (List.not_mem_nil _),
        fun hm => absurd hm (List.not_mem_nil _)⟩)
      (fun p hp => absurd hp (List.not_mem_nil _))
  cases hc : assocFind (specClaimed ids.length raw ids) h with
  | some r =>
    have hmem : (h, r) ∈ specClaimed ids.length raw ids := assocFind_some_mem _ _ _ hc
    have ha1 : (rankPass1 ids.length raw ids (fun _ => none) []).1 h = some r :=
      (A1 h r).mpr hmem
    rw [rankPass2_preserves ids _ _ out hout h r ha1]
    show some r = specRepair ids raw h
    simp only [specRepair, hc]
  | none =>
    have ha1 : (rankPass1 ids.length raw ids (fun _ => none) []).1 h = none := by
      cases hv : (rankPass1 ids.length raw ids (fun _ => none) []).1 h with
      | none => rfl
      | some r =>
        exact absurd hc (assocFind_ne_none_of_mem _ h r ((A1 h r).mp hv))
    rw [rankPass2_fill ids _ _ out hout hnd h ha1]
    have hflt : ids.filter (fun x =>
          ((rankPass1 ids.length raw ids (fun _ => none) []).1 x).isNone)
        = ids.filter (fun x =>
            decide (¬ x ∈ (specClaimed ids.length raw ids).map Prod.fst)) := by
      refine List.filter_congr (fun x hxm => ?_)
      by_cases hm : x ∈ (specClaimed ids.length raw ids).map Prod.fst
      · obtain ⟨p, hp, hpe⟩ := List.mem_map.mp hm
        have hpx : (x, p.2) ∈ specClaimed ids.length raw ids := by
          have hppe : p = (x, p.2) := by
            rw [Prod.ext_iff]
            exact ⟨hpe, rfl⟩
          rw [← hppe]
          exact hp
        rw [(A1 x p.2).mpr hpx]
        simp [hm]
      · have hxa : (rankPass1 ids.length raw ids (fun _ => none) []).1 x = none := by
          cases hv : (rankPass1 ids.length raw ids (fun _ => none) []).1 x with
          | none => rfl
          | some r =>
            exact absurd (List.mem_map.mpr ⟨(x, r), (A1 x r).mp hv, rfl⟩) hm
        rw [hxa]
        simp [hm]
    have hava : (ranksUpTo ids.length).filter (fun r =>
          decide (¬ r ∈ (rankPass1 ids.length raw ids (fun _ => none) []).2))
        = (ranksUpTo ids.length).filter (fun r =>
            decide (¬ r ∈ (specClaimed ids.length raw ids).map Prod.snd)) := by
      refine List.filter_congr (fun r _ => ?_)
      rw [decide_eq_decide]
      constructor
      · intro hni hm
        exact hni ((A2 r).mpr hm)
      · intro hni hm
        exact hni ((A2 r).mp hm)
    rw [hflt, hava]
    show assocFind _ h = specRepair ids raw h
    simp only [specRepair, hc]

theorem ensure_permutation_ranks_spec_eq_witness :
    (ensure_permutation_ranks ["x", "y", "z"] exampleRaw).map
        (fun f => (f "x", f "y", f "z")) = some (some 2, some 1, some 3)
    ∧ specRepair ["x", "y", "z"] exampleRaw "y" = some 1 :=
  ⟨(ensure_permutation_ranks_spec_eq ["x", "y", "z"] exampleRaw (by decide)).2,
    by decide⟩

/-! ### History-row extractor: `parse_horse_recent_results` (lines 129–289)

BeautifulSoup parsing of raw markup lies outside a shallow embedding, so
the document is modelled at the BeautifulSoup API boundary the source
uses: a parsed page is the list of its `tr` elements in document order,
each carrying its `td` cell texts (as `get_text(" ", strip=True)` returns
them), its hyperlinks in document order (href and stripped link text),
and its own full text.  `none` for the whole document models the `try`
block raising (the HTTP fetch or the parse failing). -/

/-- An `<a>` element of a row: its `href` attribute and its text. -/
structure Link where
  href : String
  text : String
  deriving DecidableEq, Repr

/-- A `<tr>` element: cell texts, links in document order, full row text. -/
structure Tr where
  tds : List String
  links : List Link
  text : String
  deriving DecidableEq, Repr

/-- Python `\s` on the ASCII range (`str.strip` / `re.sub(r"\s+", ...)`). -/
def isPySpace (c : Char) : Bool :=
  c = ' ' || c = '\t' || c = '\n' || c = '\r' || c = '\x0b' || c = '\x0c'

def dropLeadingWS : List Char → List Char
  | [] => []
  | c :: cs => if isPySpace c then dropLeadingWS cs else c :: cs

/-- Python `s.strip()`: drop whitespace from both ends. -/
def stripWS (l : List Char) : List Char :=
  ((dropLeadingWS ((dropLeadingWS l).reverse)).reverse)

/-- `re.sub(r"\s+", " ", ·)`: every maximal whitespace run becomes one
space.  The flag records whether the previous character was whitespace. -/
def collapseAux : Bool → List Char → List Char
  | _, [] => []
  | prevWS, c :: cs =>
    if isPySpace c then
      if prevWS then collapseAux true cs else ' ' :: collapseAux true cs
    else c :: collapseAux false cs

/-- Embedding of `_norm_ws` (line 125): strip, then collapse whitespace. -/
def norm_ws (s : String) : String := ⟨collapseAux false (stripWS s.data)⟩

def isDigitChar (c : Char) : Bool := 48 ≤ c.toNat && c.toNat ≤ 57

/-- `re.fullmatch(r"\d{1,2}", ·)`. -/
def isNum12 (s : String) : Bool :=
  match s.data with
  | [c] => isDigitChar c
  | [c1, c2] => isDigitChar c1 && isDigitChar c2
  | _ => false

/-- `pat` is an initial segment of `l` (anchored regex literal match). -/
def leadMatch : List Char → List Char → Bool
  | [], _ => true
  | _ :: _, [] => false
  | p :: ps, c :: cs => p = c && leadMatch ps cs

/-- `re.search` of a literal pattern: match at some position. -/
def containsSub : List Char → List Char → Bool
  | pat, [] => leadMatch pat []
  | pat, c :: cs => leadMatch pat (c :: cs) || containsSub pat cs

/-- `re.search(r"(中止|取消|除外|失格)", ·)` succeeds. -/
def hasSpecialKW (s : String) : Bool :=
  containsSub "中止".data s.data || containsSub "取消".data s.data ||
    containsSub "除外".data s.data || containsSub "失格".data s.data

/-- The finish-position loop (lines 176–183): first of the leading four
cells that is a 1–2 digit numeral or contains a special-status keyword. -/
def finishLoop : List String → Option String
  | [] => none
  | c :: rest =>
    if isNum12 c then some c
    else if hasSpecialKW c then some c
    else finishLoop rest

def finishOf (cols : List String) : Option String := finishLoop (cols.take 4)

/-- The venue character class of line 188 (a regex character class, so it
matches exactly one character drawn from this set). -/
def venueChars : List Char :=
  "札幌函館福島新潟中山東京中京京都阪神小倉帯広門別盛岡水沢浦和船橋大井川崎園田姫路高知佐賀金沢名古屋笠松".data

def isVenueCell (s : String) : Bool :=
  match s.data with
  | [c] => venueChars.contains c
  | _ => false

def venueOf (cols : List String) : Option String := cols.find? isVenueCell

def surfChar (c : Char) : Bool := c = '芝' || c = 'ダ' || c = '障'

def firstCharMatch (p : Char → Bool) : List Char → Option Char
  | [] => none
  | c :: cs => if p c then some c else firstCharMatch p cs

/-- `re.search(r"(芝|ダ|障)", ·)` over successive cells (lines 195–199). -/
def surfaceOf : List String → Option String
  | [] => none
  | c :: rest =>
    match firstCharMatch surfChar c.data with
    | some ch => some (String.mk [ch])
    | none => surfaceOf rest

def takeDigitsRun : List Char → List Char
  | [] => []
  | c :: cs => if isDigitChar c then c :: takeDigitsRun cs else []

def dropDigits : List Char → List Char
  | [] => []
  | c :: cs => if isDigitChar c then dropDigits cs else c :: cs

/-- Take exactly `k` digits, returning them and the remainder. -/
def takeDigits : List Char → ℕ → Option (List Char × List Char)
  | rest, 0 => some ([], rest)
  | [], _ + 1 => none
  | c :: cs, k + 1 =>
    if isDigitChar c then
      match takeDigits cs k with
      | some (ds, rest) => some (c :: ds, rest)
      | none => none
    else none

/-- `(\d{3,4})m` anchored at the head: greedy four digits, backtracking
to three. -/
def matchDistAt (l : List Char) : Option (List Char) :=
  match takeDigits l 4 with
  | some (ds, 'm' :: _) => some ds
  | _ =>
    match takeDigits l 3 with
    | some (ds3, 'm' :: _) => some ds3
    | _ => none

def searchDist : List Char → Option String
  | [] => none
  | c :: cs =>
    match matchDistAt (c :: cs) with
    | some ds => some (String.mk ds)
    | none => searchDist cs

/-- `re.search(r"(\d{3,4})m", ·)` over successive cells (lines 200–203). -/
def distanceOf : List String → Option String
  | [] => none
  | c :: rest =>
    match searchDist c.data with
    | some d => some d
    | none => distanceOf rest

/-- `(良|稍重|重|不良)` anchored at the head; alternatives in source order. -/
def goingAt (l : List Char) : Option String :=
  if leadMatch "良".data l then some "良"
  else if leadMatch "稍重".data l then some "稍重"
  else if leadMatch "重".data l then some "重"
  else if leadMatch "不良".data l then some "不良"
  else none

def searchGoing : List Char → Option String
  | [] => none
  | c :: cs =>
    match goingAt (c :: cs) with
    | some g => some g
    | none => searchGoing cs

/-- `tr.find("a", href=re.compile(pat))`: first link whose href matches. -/
def findLink (pat : String) (links : List Link) : Option Link :=
  links.find? (fun a => containsSub pat.data a.href.data)

/-- `re.fullmatch(r"\d{2,3}(?:\.\d)?", ·)` (line 218). -/
def isWeight (s : String) : Bool :=
  match s.data with
  | [a, b] => isDigitChar a && isDigitChar b
  | [a, b, c] => isDigitChar a && isDigitChar b && isDigitChar c
  | [a, b, p, d] => isDigitChar a && isDigitChar b && p = '.' && isDigitChar d
  | [a, b, c, p, d] =>
    isDigitChar a && isDigitChar b && isDigitChar c && p = '.' && isDigitChar d
  | _ => false

def weightOf (cols : List String) : Option String := cols.find? isWeight

/-- `\d:\d{2}\.\d` anchored at the head. -/
def timeAt : List Char → Option (List Char)
  | a :: ':' :: b :: c :: '.' :: d :: _ =>
    if isDigitChar a && isDigitChar b && isDigitChar c && isDigitChar d then
      some [a, ':', b, c, '.', d]
    else none
  | _ => none

/-- `re.search(r"\d:\d{2}\.\d", ·)` over the row text (line 226). -/
def searchTime : List Char → Option String
  | [] => none
  | c :: cs =>
    match timeAt (c :: cs) with
    | some t => some (String.mk t)
    | none => searchTime cs

/-- `[0-9]+\.[0-9]` as a full match. -/
def digitsThenDotDigit : List Char → Bool
  | [] => false
  | d1 :: rest =>
    if isDigitChar d1 then
      match rest with
      | '.' :: [d2] => isDigitChar d2
      | _ => digitsThenDotDigit rest
    else false

/-- `re.fullmatch(r"(大差|同着|クビ|ハナ|アタマ|[0-9]+\.[0-9])", ·)` (line 234). -/
def isMarginTok (s : String) : Bool :=
  s = "大差" || s = "同着" || s = "クビ" || s = "ハナ" || s = "アタマ" ||
    digitsThenDotDigit s.data

def marginOf (cols : List String) : Option String := cols.find? isMarginTok

/-- `re.fullmatch(r"\d+(?:\.\d+)?", ·)`. -/
def isOddsNum (l : List Char) : Bool :=
  match l with
  | [] => false
  | c :: cs =>
    if isDigitChar c then
      match dropDigits cs with
      | [] => true
      | '.' :: f :: fs => isDigitChar f && dropDigits fs = [] && (f :: fs).all isDigitChar
      | _ => false
    else false

/-- `(\d+)\s*人気` anchored at the head: the captured digit group. -/
def popAt : List Char → Option (List Char)
  | [] => none
  | c :: cs =>
    if isDigitChar c then
      if leadMatch "人気".data (dropLeadingWS (dropDigits cs)) then
        some (c :: takeDigitsRun cs)
      else none
    else none

def searchPop : List Char → Option String
  | [] => none
  | c :: cs =>
    match popAt (c :: cs) with
    | some ds => some (String.mk ds)
    | none => searchPop cs

/-- The odds/popularity loop (lines 239–248): odds is the first bare
decimal cell; popularity is re-assigned by every later matching cell. -/
def oddsPop : List String → Option String → Option String →
    (Option String × Option String)
  | [], odds, pop => (odds, pop)
  | c :: rest, odds, pop =>
    let odds2 := if isOddsNum c.data && odds.isNone then some c else odds
    let pop2 :=
      if containsSub "人気".data c.data then
        match searchPop c.data with
        | some p => some p
        | none => pop
      else pop
    oddsPop rest odds2 pop2

def digitsToNat : List Char → ℕ
  | [] => 0
  | c :: cs => digitsToNatAux (c :: cs) 0
where digitsToNatAux : List Char → ℕ → ℕ
  | [], acc => acc
  | c :: cs, acc => digitsToNatAux cs (acc * 10 + (c.toNat - 48))

/-- `float(·)` on a string already matched by `\d+(\.\d+)?`, exactly. -/
def parseDecQ (l : List Char) : ℚ :=
  match dropDigits l with
  | '.' :: fp =>
    (digitsToNat (takeDigitsRun l) : ℚ)
      + (digitsToNat (takeDigitsRun fp) : ℚ) / (10 : ℚ) ^ (takeDigitsRun fp).length
  | _ => (digitsToNat (takeDigitsRun l) : ℚ)

/-- The prize extraction (lines 251–259, with the null-to-0 rule of
line 276): last cell if it is a bare decimal, else 0. -/
def prizeOf (cols : List String) : ℚ :=
  match cols.getLast? with
  | some lastCol => if isOddsNum lastCol.data then parseDecQ lastCol.data else 0
  | none => 0

/-- The race-name rule (lines 163–171): fifth column if non-empty, else
the race link's text. -/
def raceNameOf (cols : List String) (links : List Link) : Option String :=
  match (if 5 ≤ cols.length then cols.get? 4 else none) with
  | some c4 =>
    if norm_ws c4 ≠ "" then some (norm_ws c4)
    else
      match findLink "/race/" links with
      | some a => some (norm_ws a.text)
      | none => none
  | none =>
    match findLink "/race/" links with
    | some a => some (norm_ws a.text)
    | none => none

/-- One extracted record (the dict built at lines 261–279). -/
structure Item where
  date : Option String
  race : Option String
  finish : Option String
  venue : Option String
  surface : Option String
  distanceM : Option String
  going : Option String
  jockey : Option String
  weight : Option String
  time : Option String
  margin : Option String
  odds : Option String
  pop : Option String
  prize : ℚ
  raw : String
  cols : List String
  deriving DecidableEq, Repr

/-- A row qualifies when it contains a link whose href matches `/race/`. -/
def hasRaceLink (tr : Tr) : Bool :=
  (findLink "/race/" tr.links).isSome

/-- The per-row record assembly (lines 152–280). -/
def buildItem (tr : Tr) : Item :=
  { date := (findLink "/race/list/" tr.links).map (fun a => norm_ws a.text)
    race := raceNameOf (tr.tds.map norm_ws) tr.links
    finish := finishOf (tr.tds.map norm_ws)
    venue := venueOf (tr.tds.map norm_ws)
    surface := surfaceOf (tr.tds.map norm_ws)
    distanceM := distanceOf (tr.tds.map norm_ws)
    going := searchGoing (norm_ws tr.text).data
    jockey := (findLink "/jockey/" tr.links).map (fun a => norm_ws a.text)
    weight := weightOf (tr.tds.map norm_ws)
    time := searchTime (norm_ws tr.text).data
    margin := marginOf (tr.tds.map norm_ws)
    odds := (oddsPop (tr.tds.map norm_ws) none none).1
    pop := (oddsPop (tr.tds.map norm_ws) none none).2
    prize := prizeOf (tr.tds.map norm_ws)
    raw := norm_ws tr.text
    cols := tr.tds.map norm_ws }

/-- The accumulation loop (lines 152–283): append each qualifying row's
record, stopping as soon as `len(out) >= limit`. -/
def extractLoop (limit : Option ℤ) : List Tr → List Item → List Item
  | [], out => out
  | tr :: rest, out =>
    match limit with
    | some k =>
      if ((out ++ [buildItem tr]).length : ℤ) ≥ k then out ++ [buildItem tr]
      else extractLoop limit rest (out ++ [buildItem tr])
    | none => extractLoop limit rest (out ++ [buildItem tr])

/-- `HORSE_RESULTS_LIMIT = 20` (line 105), the signature's default cap. -/
def HORSE_RESULTS_LIMIT : ℤ := 20

/-- Embedding of `parse_horse_recent_results`: select the rows holding a
`/race/` link, in document order, and build a record per row up to the
cap; a failed fetch/parse (`doc = none`) yields the empty list. -/
def parse_horse_recent_results (doc : Option (List Tr)) (limit : Option ℤ) :
    List Item :=
  match doc with
  | none => []
  | some soup => extractLoop limit (soup.filter hasRaceLink) []

/-- The call with the default `limit` argument of the signature. -/
def parse_horse_recent_results_default (doc : Option (List Tr)) : List Item :=
  parse_horse_recent_results doc (some HORSE_RESULTS_LIMIT)

example : norm_ws "  a \t b  " = "a b" := by decide

example : finishOf ["x", "99", "3"] = some "99" := by decide

/-- With a positive cap the loop takes exactly the first
`cap - len(out)` remaining records. -/
lemma extractLoop_take (k : ℤ) (rows : List Tr) :
    ∀ out : List Item, (out.length : ℤ) < k →
      extractLoop (some k) rows out
        = out ++ (rows.map buildItem).take (k - out.length).toNat := by
  induction rows with
  | nil =>
    intro out h
    simp [extractLoop]
  | cons tr rest ih =>
    intro out h
    simp only [extractLoop]
    by_cases hc : ((out ++ [buildItem tr]).length : ℤ) ≥ k
    · rw [if_pos hc]
      have h1 : (k - (out.length : ℤ)).toNat = 1 := by
        simp only [List.length_append, List.length_cons, List.length_nil] at hc
        push_cast at hc
        omega
      rw [List.map_cons, h1, List.take_succ_cons, List.take_zero]
    · rw [if_neg hc]
      have hlt : ((out ++ [buildItem tr]).length : ℤ) < k := by
        omega
      rw [ih (out ++ [buildItem tr]) hlt]
      have h2 : (k - (out.length : ℤ)).toNat
          = (k - ((out ++ [buildItem tr]).length : ℤ)).toNat + 1 := by
        simp only [List.length_append, List.length_cons, List.length_nil]
        push_cast
        omega
      rw [List.map_cons, h2, List.take_succ_cons, List.append_assoc]
      rfl

/-- With no cap the loop appends every remaining record. -/
lemma extractLoop_none_eq (rows : List Tr) :
    ∀ out, extractLoop none rows out = out ++ rows.map buildItem := by
  induction rows with
  | nil =>
    intro out
    simp [extractLoop]
  | cons tr rest ih =>
    intro out
    simp only [extractLoop]
    rw [ih]
    simp

/-- C6 (amended): for every document and cap `K ≥ 1` the result is the
first `K` qualifying rows' records in document order: length ≤ `K`,
length ≤ the number of qualifying rows, and exactly `K` records whenever
more than `K` rows qualify.  (A cap `K ≤ 0` escapes this: the loop only
tests the cap after appending, so it returns one record — see the
counterexample.) -/
theorem parse_horse_recent_results_cap (soup : List Tr) (k : ℤ) (hk : 1 ≤ k) :
    parse_horse_recent_results (some soup) (some k)
      = ((soup.filter hasRaceLink).map buildItem).take k.toNat
    ∧ (parse_horse_recent_results (some soup) (some k)).length
        ≤ (soup.filter hasRaceLink).length
    ∧ ((parse_horse_recent_results (some soup) (some k)).length : ℤ) ≤ k
    ∧ (k < ((soup.filter hasRaceLink).length : ℤ) →
        ((parse_horse_recent_results (some soup) (some k)).length : ℤ) = k) := by
  have h0 : parse_horse_recent_results (some soup) (some k)
      = ((soup.filter hasRaceLink).map buildItem).take k.toNat := by
    show extractLoop (some k) (soup.filter hasRaceLink) [] = _
    rw [extractLoop_take k _ [] (by simpa using hk)]
    simp
  have hkz : k.toNat = k := Int.toNat_of_nonneg (by omega)
  refine ⟨h0, ?_, ?_, ?_⟩
  · rw [h0, List.length_take, List.length_map]
    omega
  · rw [h0, List.length_take, List.length_map]
    push_cast
    omega
  · intro hlt
    rw [h0, List.length_take, List.length_map]
    push_cast
    omega

/-- A minimal qualifying row used in concrete instances. -/
def trMinimal : Tr :=
  { tds := ["1"]
    links := [{ href := "/race/202301010101", text := "レース" }]
    text := "1 レース" }

theorem parse_horse_recent_results_cap_witness :
    ((parse_horse_recent_results (some [trMinimal, trMinimal]) (some 1)).length : ℤ)
      = 1 := by
  have h := parse_horse_recent_results_cap [trMinimal, trMinimal] 1 (by decide)
  exact h.2.2.2 (by decide)

/-- C6, counterexample to the claim as stated: with cap `K = 0` and one
qualifying row, the result holds 1 record, breaking `length ≤ K` —
the source tests the cap only after appending a record. -/
theorem parse_horse_recent_results_cap_cx :
    (parse_horse_recent_results (some [trMinimal]) (some 0)).length = 1
    ∧ ¬ ((1 : ℤ) ≤ 0) := by
  exact ⟨by decide, by decide⟩

/-- C7 (amended): the cap parameter's default is `HORSE_RESULTS_LIMIT = 20`,
not unbounded; only an explicit `None` cap returns every qualifying row
untruncated. -/
theorem parse_horse_recent_results_default_cap (soup : List Tr) :
    parse_horse_recent_results_default (some soup)
      = parse_horse_recent_results (some soup) (some HORSE_RESULTS_LIMIT)
    ∧ HORSE_RESULTS_LIMIT = 20
    ∧ parse_horse_recent_results (some soup) none
      = (soup.filter hasRaceLink).map buildItem := by
  refine ⟨rfl, rfl, ?_⟩
  show extractLoop none (soup.filter hasRaceLink) [] = _
  rw [extractLoop_none_eq]
  simp

/-- C7, counterexample to the claim as stated: a document with 21
qualifying rows is truncated to 20 records by the default call. -/
theorem parse_horse_recent_results_default_cap_cx :
    (parse_horse_recent_results_default (some (List.replicate 21 trMinimal))).length
      = 20
    ∧ ((List.replicate 21 trMinimal).filter hasRaceLink).length = 21
    ∧ ¬ (20 = 21) := by
  exact ⟨by decide, by decide, by decide⟩

/-- C8 (amended): the finish heuristic examines only the first 4 cells
and accepts the first cell that is a 1–2 digit numeral — any value
00–99, with no `[1, 18]` range check — or that merely contains a
special-status keyword; otherwise the field is absent. -/
theorem finish_heuristic (tr : Tr) :
    (buildItem tr).finish
      = ((tr.tds.map norm_ws).take 4).find? (fun c => isNum12 c || hasSpecialKW c) := by
  show finishLoop ((tr.tds.map norm_ws).take 4) = _
  generalize (tr.tds.map norm_ws).take 4 = l
  induction l with
  | nil => rfl
  | cons c rest ih =>
    rw [finishLoop]
    by_cases h1 : isNum12 c = true
    · rw [if_pos h1, List.find?_cons_of_pos _ (by simp [h1])]
    · rw [if_neg h1]
      by_cases h2 : hasSpecialKW c = true
      · rw [if_pos h2, List.find?_cons_of_pos _ (by simp [h1, h2])]
      · rw [if_neg h2, List.find?_cons_of_neg _ (by simp [h1, h2]), ih]

/-- The acceptance rule exactly as the claim states it: a 1–2 digit
numeral whose value lies in `[1, 18]`, or a cell that IS one of the
special-status keywords. -/
def specFinishAccept (s : String) : Bool :=
  (isNum12 s && decide (1 ≤ digitsToNat s.data ∧ digitsToNat s.data ≤ 18))
    || s = "中止" || s = "取消" || s = "除外" || s = "失格"

/-- C8, counterexample to the claim as stated: the code accepts the cell
"99" (outside `[1, 18]`) and the cell "(中止)" (which merely contains a
keyword); the claim's rule accepts neither. -/
theorem finish_heuristic_cx :
    (buildItem { tds := ["99"], links := [], text := "99" }).finish = some "99"
    ∧ (["99"].take 4).find? specFinishAccept = none
    ∧ (buildItem { tds := ["(中止)"], links := [], text := "(中止)" }).finish
        = some "(中止)"
    ∧ (["(中止)"].take 4).find? specFinishAccept = none := by
  exact ⟨by decide, by decide, by decide, by decide⟩

/-- C9: if fetching/parsing the markup fails (the `try` block raises),
the function returns the empty sequence; the embedding is a total
function, so no input propagates an exception. -/
theorem parse_horse_recent_results_never_throws (limit : Option ℤ) :
    parse_horse_recent_results none limit = [] := rfl

end Predict
